import Mathlib

/-!
Verification of the `bling` line colorizer (repository halvfigur/bling).

The repository contains two variants of the program:
* `src/bling.go` — output segments are half-open (`newSegment(i, i+1, c)`,
  renderer slices `line[s.begin:s.end]`);
* `src/unnamed/part_000` — output segments are closed
  (`newSegment(i, i, c)`, initial Segment `(0, -1)`, renderer slices
  `line[s.begin:s.end+1]`).

Both share the color table, the `Segment` type with its closed-interval
`contains` test, the matcher, the read loop and the argument parser.
Definitions below are shallow embeddings of the Go functions; definitions
specific to the `part_000` variant carry a `P0` suffix.  Go's `regexp` and
the file system are external collaborators and are modelled as oracle
functions supplied as parameters.
-/

/-- Go `type color string` (both files). -/
abbrev color := String

/-- Go constant `RESET = color("reset")`. -/
def RESET : color := "reset"

/-- Go constant `OVERLAP = ("overlap")`. -/
def OVERLAP : color := "overlap"

/-- Go `Segment` struct: `begin`, `end` (machine ints, modelled as `Int`;
the `part_000` variant stores `-1` in `end`) and a color `c`. -/
structure Segment where
  begin : Int
  «end» : Int
  c : color
deriving DecidableEq, Repr

/-- Go `func (s *Segment) contains(x int) bool { return s.begin <= x && x <= s.end }`
(identical in both files): closed-interval membership. -/
def Segment.contains (s : Segment) (x : Int) : Bool :=
  decide (s.begin ≤ x) && decide (x ≤ s.«end»)

/-- Go color table `colors` (keys are identical in both files; values are the
escape byte strings of `src/bling.go`, `string` values in `part_000`). -/
def colors : List (color × List Char) :=
  [("black",   "\x1b[30m".toList),
   ("red",     "\x1b[31m".toList),
   ("green",   "\x1b[32m".toList),
   ("yellow",  "\x1b[33m".toList),
   ("blue",    "\x1b[34m".toList),
   ("magenta", "\x1b[35m".toList),
   ("cyan",    "\x1b[36m".toList),
   ("white",   "\x1b[37m".toList),
   ("reset",   "\x1b[0m".toList),
   ("overlap", "\x1b[37;1;4m".toList)]

/-- Go map read `colors[c]`: missing key yields `nil`/`""`, i.e. no bytes. -/
def colorsGet (c : color) : List Char :=
  (colors.lookup c).getD []

/-- The inner loop of `makeColorizedSegments` over `spans` (identical in both
files): increment `overlaps` on each span containing `i`; the first containing
span sets `c` to its color, a second one sets `c = OVERLAP` and breaks. -/
def resolveLoop (i : Int) : List Segment → Nat → color → color
  | [], _, c => c
  | m :: ms, overlaps, c =>
    if m.contains i then
      if overlaps + 1 == 1 then resolveLoop i ms (overlaps + 1) m.c
      else OVERLAP
    else resolveLoop i ms overlaps c

/-- The per-position color computed by `makeColorizedSegments` at position `i`
(loop state starts with `c := RESET`, `overlaps := 0`). -/
def resolveAt (spans : List Segment) (i : Int) : color :=
  resolveLoop i spans 0 RESET

/-- Declarative restatement of `resolveAt` used in proofs: the resolved color
depends only on the spans containing the position — none gives `RESET`,
exactly one gives that span's color, two or more give `OVERLAP`. -/
def resolveSpec (spans : List Segment) (i : Int) : color :=
  match spans.filter (fun m => m.contains i) with
  | [] => RESET
  | [m] => m.c
  | _ :: _ :: _ => OVERLAP

/-- The `for i := 0; i < len(line); i++` loop of `makeColorizedSegments` in
`src/bling.go`, iterating over the remaining positions: extend the current
Segment when the resolved color is unchanged (`Segment.end++`), otherwise
emit it and start `newSegment(i, i+1, c)`. -/
def mkLoop (spans : List Segment) : List Nat → List Segment → Segment → List Segment
  | [], segs, seg => segs ++ [seg]
  | i :: is, segs, seg =>
    let c := resolveAt spans (i : Int)
    if seg.c == c then mkLoop spans is segs ⟨seg.begin, seg.«end» + 1, seg.c⟩
    else mkLoop spans is (segs ++ [seg]) ⟨(i : Int), (i : Int) + 1, c⟩

/-- Go `makeColorizedSegments` of `src/bling.go`: initial Segment
`newSegment(0, 0, RESET)`; only `len(line)` is consulted by the loop. -/
def makeColorizedSegments (line : List Char) (spans : List Segment) : List Segment :=
  mkLoop spans (List.range line.length) [] ⟨0, 0, RESET⟩

/-- The position loop of `makeColorizedSegments` in `src/unnamed/part_000`:
same structure, but a new Segment is `newSegment(i, i, c)` (closed interval). -/
def mkLoopP0 (spans : List Segment) : List Nat → List Segment → Segment → List Segment
  | [], segs, seg => segs ++ [seg]
  | i :: is, segs, seg =>
    let c := resolveAt spans (i : Int)
    if seg.c == c then mkLoopP0 spans is segs ⟨seg.begin, seg.«end» + 1, seg.c⟩
    else mkLoopP0 spans is (segs ++ [seg]) ⟨(i : Int), (i : Int), c⟩

/-- Go `makeColorizedSegments` of `src/unnamed/part_000`: initial Segment
`newSegment(0, -1, RESET)`. -/
def makeColorizedSegmentsP0 (line : List Char) (spans : List Segment) : List Segment :=
  mkLoopP0 spans (List.range line.length) [] ⟨0, -1, RESET⟩

/-- Go slice `line[b:e]` (half-open, as used by `printColorized` in
`src/bling.go`); in-range for all segments produced by the segmenter. -/
def sliceGo (line : List Char) (b e : Int) : List Char :=
  (line.drop b.toNat).take (e - b).toNat

/-- Go `printColorized` of `src/bling.go`: for each Segment write the color
escape, the covered bytes `line[s.begin:s.end]` and the reset escape;
`fmt.Println` appends the final newline. -/
def printColorized (line : List Char) (segments : List Segment) : List Char :=
  (segments.map (fun s => colorsGet s.c ++ sliceGo line s.begin s.«end» ++ colorsGet RESET)).flatten
    ++ ['\n']

/-- Go `printColorized` of `src/unnamed/part_000`: slices
`line[s.begin:s.end+1]` (closed intervals); `fmt.Println()` ends the line. -/
def printColorizedP0 (line : List Char) (segments : List Segment) : List Char :=
  (segments.map (fun s => colorsGet s.c ++ sliceGo line s.begin (s.«end» + 1) ++ colorsGet RESET)).flatten
    ++ ['\n']

/-- A compiled regular expression is external (`regexp.FindAllSubmatchIndex`):
modelled as an oracle returning the list of `(idx[0], idx[1])` match bounds. -/
abbrev RegexFn := List Char → List (Int × Int)

/-- Go `exprsMap map[color][]*regexp.Regexp`, as an association list. -/
abbrev exprsT := List (color × List RegexFn)

/-- Go `sort.Slice(spans, ...)` by `begin` (insertion sort; the Go sort is
unstable, so ties are arbitrary in both). -/
def insertSeg (s : Segment) : List Segment → List Segment
  | [] => [s]
  | t :: ts => if s.begin < t.begin then s :: t :: ts else t :: insertSeg s ts

/-- Sort a span list by `begin`, modelling the `sort.Slice` calls. -/
def sortByBegin : List Segment → List Segment
  | [] => []
  | s :: ss => insertSeg s (sortByBegin ss)

/-- Go `findMatchingSegments` (identical in both files): for every color and
every compiled expression collect `newSegment(idx[0], idx[1]-1, c)` per match
occurrence, then sort by `begin`. -/
def findMatchingSegments (line : List Char) (exprs : exprsT) : List Segment :=
  sortByBegin
    ((exprs.map (fun p =>
        (p.2.map (fun expr => (expr line).map (fun idx => Segment.mk idx.1 (idx.2 - 1) p.1))).flatten)).flatten)

/-- Terminal condition of an input stream: clean end-of-input (`io.EOF`) or a
read error carrying a message. -/
inductive Terminal where
  | eof
  | err (e : String)
deriving DecidableEq, Repr

/-- An input stream: the bytes it will deliver and the condition that follows
them (`io.Reader` behind `bufio.NewReader`). -/
structure Stream0 where
  content : List Char
  term : Terminal
deriving DecidableEq, Repr

/-- Split the stream content into the newline-terminated lines delivered by
successive `br.ReadBytes('\n')` calls (each includes its `'\n'`) and the
unterminated remainder, which `ReadBytes` returns together with the terminal
condition (`io.EOF` or the read error). -/
def splitLines : List Char → List (List Char) × List Char
  | [] => ([], [])
  | ch :: rest =>
    let (ls, r) := splitLines rest
    if ch = '\n' then (['\n'] :: ls, r)
    else
      match ls with
      | [] => ([], ch :: r)
      | l :: ls' => ((ch :: l) :: ls', r)

/-- Go `run` (identical in both files): loop `ReadBytes('\n')`; on an error
return `nil` for `io.EOF` and the error otherwise — in both cases WITHOUT
processing the bytes returned alongside the error, so an unterminated final
line is discarded.  Each complete line is stripped of its trailing `'\n'`
(`line[len(line)-1] == '\n'` always holds there), matched, segmented and
printed.  Result: the lines written to stdout and `run`'s return value. -/
def run (exprs : exprsT) (s : Stream0) : List (List Char) × Except String Unit :=
  ((splitLines s.content).1.map (fun line =>
      let line := if line.getLast? = some '\n' then line.dropLast else line
      printColorized line (makeColorizedSegments line (findMatchingSegments line exprs))),
   match s.term with
   | .eof => .ok ()
   | .err e => .error e)

/-- Go's ASCII `\w` character class (`[0-9A-Za-z_]`). -/
def isWordChar (ch : Char) : Bool := ch.isAlphanum || ch = '_'

/-- `re.FindStringSubmatch(arg)` for `re = regexp.MustCompile("^-(\\w+)=(.*)")`:
the argument must start with `-`, then one or more word characters up to an
`=`; group 2 is what `(.*)` matches after the `=`, i.e. everything up to the
first newline.  Returns `(COLOR, PATTERN)` on a match (`len(parts) == 3`). -/
def argShape (arg : String) : Option (String × String) :=
  match arg.toList with
  | '-' :: rest =>
    let w := rest.takeWhile isWordChar
    if w.isEmpty then none
    else
      match rest.drop w.length with
      | '=' :: p => some (String.mk w, String.mk (p.takeWhile (fun ch => ch ≠ '\n')))
      | _ => none
  | _ => none

/-- `exprs[col] = append(exprs[col], expr)` on the association-list model of
the Go map (a fresh slice is created when the key is absent). -/
def insertExpr (exprs : exprsT) (col : color) (expr : RegexFn) : exprsT :=
  match exprs with
  | [] => [(col, [expr])]
  | (c, es) :: rest =>
    if c = col then (c, es ++ [expr]) :: rest else (c, es) :: insertExpr rest col expr

/-- The `for i, arg := range args` loop of Go `parseArgs` (identical in both
files).  `compile` is the external `regexp.Compile` (`none` = syntax error);
`openOk` is the external `os.Open` (`false` = open fails).  A token that does
not match the binding shape is an error unless it is the last argument, in
which case it is opened as the input file (`break`); a shape token is checked
against the color table (`colors[col] == nil`), then compiled.  The returned
source is `some path` for a file and `none` for `os.Stdin`. -/
def parseLoop (compile : String → Option RegexFn) (openOk : String → Bool) :
    List String → exprsT → Except String (exprsT × Option String)
  | [], exprs => .ok (exprs, none)
  | arg :: rest, exprs =>
    match argShape arg with
    | none =>
      if rest ≠ [] then .error ("Invalid argument " ++ arg)
      else if openOk arg then .ok (exprs, some arg)
      else .error ("open " ++ arg)
    | some (col, pattern) =>
      if (colors.lookup col).isNone then .error ("Unrecognized color " ++ col)
      else
        match compile pattern with
        | some expr => parseLoop compile openOk rest (insertExpr exprs col expr)
        | none => .error ("Invalid pattern " ++ pattern)

/-- Go `parseArgs` (identical in both files). -/
def parseArgs (compile : String → Option RegexFn) (openOk : String → Bool)
    (args : List String) : Except String (exprsT × Option String) :=
  parseLoop compile openOk args []

/-- Go `main`: usage error when no arguments; `log.Fatal` on a `parseArgs`
error (exit status 1, nothing printed); otherwise `run(file, exprs)` is called
and its return value is DISCARDED (the Go code ignores `run`'s error), so the
process always exits 0 after processing.  Result: stdout lines and the exit
status. -/
def mainGo (compile : String → Option RegexFn) (openOk : String → Bool)
    (args : List String) (input : Stream0) : List (List Char) × Nat :=
  if args.isEmpty then ([], 1)
  else
    match parseArgs compile openOk args with
    | .error _ => ([], 1)
    | .ok (exprs, _) => ((run exprs input).1, 0)

/-- Verification-layer view of a `src/bling.go` output segment: the positions
it covers, read half-open as the renderer's slice `line[s.begin:s.end]` does. -/
def covers (s : Segment) (j : Int) : Bool :=
  decide (s.begin ≤ j) && decide (j < s.«end»)

/-- Verification-layer invariant: the segments tile `[a, b)` contiguously in
order, each segment `s` contributing `[s.begin, s.end)` (possibly empty). -/
def chain : Int → List Segment → Int → Prop
  | a, [], b => a = b
  | a, s :: l, b => s.begin = a ∧ a ≤ s.«end» ∧ chain s.«end» l b

/-- Convert a half-open `src/bling.go` segment to the closed convention that
`Segment.contains` reads (`part_000`'s segments already use it). -/
def toClosed (s : Segment) : Segment := ⟨s.begin, s.«end» - 1, s.c⟩

/-- The argument list contains a token `parseArgs` rejects: a non-final token
not matching `-COLOR=PATTERN`, an unrecognized color, a pattern that fails to
compile, or a final file token that cannot be opened. -/
def hasBadToken (compile : String → Option RegexFn) (openOk : String → Bool) :
    List String → Bool
  | [] => false
  | arg :: rest =>
    match argShape arg with
    | none => (decide (rest ≠ []) || !openOk arg) || hasBadToken compile openOk rest
    | some (col, pattern) =>
      (colors.lookup col).isNone || (compile pattern).isNone || hasBadToken compile openOk rest

/-! ### Per-position color resolution -/

theorem resolveLoop_one (i : Int) : ∀ (ms : List Segment) (c : color),
    resolveLoop i ms 1 c =
      if (ms.filter (fun m => m.contains i)).isEmpty then c else OVERLAP := by
  intro ms
  induction ms with
  | nil => intro c; simp [resolveLoop]
  | cons m rest ih =>
    intro c
    by_cases h : m.contains i
    · simp [resolveLoop, h, List.filter_cons]
    · simp [resolveLoop, h, List.filter_cons, ih]

theorem resolveAt_eq_spec (spans : List Segment) (i : Int) :
    resolveAt spans i = resolveSpec spans i := by
  induction spans with
  | nil => rfl
  | cons m rest ih =>
    by_cases h : m.contains i
    · rw [resolveAt, resolveLoop]
      simp only [h, if_true]
      rw [if_pos (by decide), resolveLoop_one]
      unfold resolveSpec
      rw [List.filter_cons, if_pos h]
      cases hf : rest.filter (fun m => m.contains i) with
      | nil => simp [hf]
      | cons a t => simp [hf]
    · rw [resolveAt, resolveLoop]
      simp only [h, if_false]
      have : resolveLoop i rest 0 RESET = resolveAt rest i := rfl
      rw [this, ih]
      unfold resolveSpec
      rw [List.filter_cons]
      simp [h]

/-- C2: per-position color resolution — the color the segmenter resolves at a
position depends only on the spans containing that position: exactly one
containing span gives that span's color whatever else matched elsewhere, and
two or more containing spans give the `OVERLAP` pseudo-color and never one of
the containing spans' own (non-overlap) colors. -/
theorem per_position_resolution (spans : List Segment) (i : Int) :
    (∀ m : Segment, spans.filter (fun s => s.contains i) = [m] →
      resolveAt spans i = m.c) ∧
    (2 ≤ (spans.filter (fun s => s.contains i)).length →
      resolveAt spans i = OVERLAP ∧
      ∀ m ∈ spans, m.contains i = true → m.c ≠ OVERLAP → resolveAt spans i ≠ m.c) := by
  constructor
  · intro m hm
    rw [resolveAt_eq_spec]
    unfold resolveSpec
    rw [hm]
  · intro h2
    have hov : resolveAt spans i = OVERLAP := by
      rw [resolveAt_eq_spec]
      unfold resolveSpec
      cases hf : spans.filter (fun s => s.contains i) with
      | nil => rw [hf] at h2; simp at h2
      | cons a t =>
        cases t with
        | nil => rw [hf] at h2; simp at h2
        | cons b u => rfl
    refine ⟨hov, fun m _ _ hne hcm => hne ?_⟩
    rw [← hcm, hov]

/-- Witness for `per_position_resolution` at concrete inputs: a lone red span
resolves to red at position 1; red and blue spans both containing position 1
resolve to `OVERLAP`. -/
theorem per_position_resolution_witness :
    resolveAt [⟨0, 2, "red"⟩] 1 = "red" ∧
    resolveAt [⟨0, 2, "red"⟩, ⟨1, 3, "blue"⟩] 1 = OVERLAP :=
  ⟨(per_position_resolution [⟨0, 2, "red"⟩] 1).1 ⟨0, 2, "red"⟩ (by decide),
   ((per_position_resolution [⟨0, 2, "red"⟩, ⟨1, 3, "blue"⟩] 1).2 (by decide)).1⟩

/-- C9: overlap counting uses raw spans without color deduplication — when two
or more spans contain a position, the resolved color is `OVERLAP` even if
every span containing the position carries one and the same color `c₀`. -/
theorem same_color_spans_still_overlap (spans : List Segment) (i : Int) (c₀ : color)
    (h2 : 2 ≤ (spans.filter (fun s => s.contains i)).length)
    (hall : ∀ m ∈ spans, m.contains i = true → m.c = c₀) :
    resolveAt spans i = OVERLAP ∧ (c₀ ≠ OVERLAP → resolveAt spans i ≠ c₀) := by
  have hov : resolveAt spans i = OVERLAP := by
    rw [resolveAt_eq_spec]
    unfold resolveSpec
    cases hf : spans.filter (fun s => s.contains i) with
    | nil => rw [hf] at h2; simp at h2
    | cons a t =>
      cases t with
      | nil => rw [hf] at h2; simp at h2
      | cons b u => rfl
  exact ⟨hov, fun hne hc => hne (hc.symm.trans hov)⟩

/-- Witness for `same_color_spans_still_overlap`: two red spans both cover
position 1 and the position resolves to `OVERLAP`, not red. -/
theorem same_color_spans_still_overlap_witness :
    resolveAt [⟨0, 2, "red"⟩, ⟨1, 3, "red"⟩] 1 = OVERLAP ∧
    ("red" : color) ≠ OVERLAP ∧ resolveAt [⟨0, 2, "red"⟩, ⟨1, 3, "red"⟩] 1 ≠ "red" := by
  have h := same_color_spans_still_overlap [⟨0, 2, "red"⟩, ⟨1, 3, "red"⟩] 1 "red"
    (by decide) (by decide)
  exact ⟨h.1, by decide, h.2 (by decide)⟩

/-! ### The chain invariant of the segmenter -/

theorem chain_le : ∀ (l : List Segment) (a b : Int), chain a l b → a ≤ b := by
  intro l
  induction l with
  | nil => intro a b h; exact le_of_eq h
  | cons s l ih =>
    intro a b h
    obtain ⟨_, h2, h3⟩ := h
    exact le_trans h2 (ih _ _ h3)

theorem chain_append_singleton : ∀ (l : List Segment) (a b : Int) (s : Segment),
    chain a l b → b = s.begin → s.begin ≤ s.«end» → chain a (l ++ [s]) s.«end» := by
  intro l
  induction l with
  | nil =>
    intro a b s h hb hs
    exact ⟨by rw [← hb, ← h], by rw [h, hb]; exact hs, rfl⟩
  | cons t l ih =>
    intro a b s h hb hs
    obtain ⟨h1, h2, h3⟩ := h
    exact ⟨h1, h2, ih _ _ _ h3 hb hs⟩

theorem chain_bounds : ∀ (l : List Segment) (a b : Int), chain a l b →
    ∀ s ∈ l, a ≤ s.begin ∧ s.«end» ≤ b := by
  intro l
  induction l with
  | nil => intro a b _ s hs; exact absurd hs (List.not_mem_nil s)
  | cons t l ih =>
    intro a b h s hs
    obtain ⟨h1, h2, h3⟩ := h
    rcases List.mem_cons.mp hs with rfl | hs'
    · exact ⟨le_of_eq h1.symm, chain_le _ _ _ h3⟩
    · have := ih _ _ h3 s hs'
      exact ⟨le_trans (h1 ▸ h2) this.1, this.2⟩

theorem chain_pairwise : ∀ (l : List Segment) (a b : Int), chain a l b →
    l.Pairwise (fun s t => s.«end» ≤ t.begin) := by
  intro l
  induction l with
  | nil => intro a b _; exact List.Pairwise.nil
  | cons t l ih =>
    intro a b h
    obtain ⟨_, _, h3⟩ := h
    exact List.Pairwise.cons (fun s hs => (chain_bounds _ _ _ h3 s hs).1) (ih _ _ h3)

theorem chain_filter_covers : ∀ (l : List Segment) (a b j : Int), chain a l b →
    a ≤ j → j < b →
    ∃ s₀, l.filter (fun s => covers s j) = [s₀] ∧ s₀ ∈ l ∧ covers s₀ j = true := by
  intro l
  induction l with
  | nil =>
    intro a b j h haj hjb
    rw [h] at haj; omega
  | cons s l ih =>
    intro a b j h haj hjb
    obtain ⟨h1, h2, h3⟩ := h
    by_cases hj : j < s.«end»
    · have hcov : covers s j = true := by
        simp only [covers, Bool.and_eq_true, decide_eq_true_eq]
        exact ⟨h1 ▸ haj, hj⟩
      have hnil : l.filter (fun s => covers s j) = [] := by
        rw [List.filter_eq_nil_iff]
        intro t ht
        have := (chain_bounds _ _ _ h3 t ht).1
        simp only [covers, Bool.and_eq_true, decide_eq_true_eq, not_and, not_lt]
        intro hbt
        omega
      exact ⟨s, by rw [List.filter_cons, if_pos hcov, hnil],
        List.mem_cons_self s l, hcov⟩
    · have hcov : ¬ (covers s j = true) := by
        simp only [covers, Bool.and_eq_true, decide_eq_true_eq, not_and, not_lt]
        intro _
        exact le_of_not_lt hj
      obtain ⟨s₀, hf, hmem, hcov₀⟩ := ih s.«end» b j h3 (le_of_not_lt hj) hjb
      refine ⟨s₀, ?_, List.mem_cons_of_mem s hmem, hcov₀⟩
      rw [List.filter_cons, if_neg hcov]
      exact hf

theorem slice_split (line : List Char) (a m b : Int)
    (h0 : 0 ≤ a) (h1 : a ≤ m) (h2 : m ≤ b) :
    sliceGo line a m ++ sliceGo line m b = sliceGo line a b := by
  unfold sliceGo
  have hsum : (b - a).toNat = (m - a).toNat + (b - m).toNat := by omega
  rw [hsum, List.take_add]
  congr 2
  rw [List.drop_drop]
  congr 1
  omega

theorem chain_slices (line : List Char) : ∀ (l : List Segment) (a b : Int),
    chain a l b → 0 ≤ a →
    (l.map (fun s => sliceGo line s.begin s.«end»)).flatten = sliceGo line a b := by
  intro l
  induction l with
  | nil =>
    intro a b h _
    rw [h]
    simp [sliceGo]
  | cons s l ih =>
    intro a b h h0
    obtain ⟨h1, h2, h3⟩ := h
    have hend : (0 : Int) ≤ s.«end» := le_trans (h1 ▸ h0) h2
    simp only [List.map_cons, List.flatten_cons]
    rw [ih s.«end» b h3 hend, h1]
    exact slice_split line a s.«end» b h0 (h1 ▸ h2) (chain_le _ _ _ h3)

theorem mkLoop_inv (spans : List Segment) :
    ∀ (k i : Nat) (segs : List Segment) (seg : Segment),
      chain 0 segs seg.begin →
      seg.begin ≤ seg.«end» →
      seg.«end» = (i : Int) →
      (∀ s ∈ segs, ∀ j : Int, covers s j = true → resolveAt spans j = s.c) →
      (∀ j : Int, covers seg j = true → resolveAt spans j = seg.c) →
      chain 0 (mkLoop spans (List.range' i k) segs seg) ((i + k : Nat) : Int) ∧
      ∀ s ∈ mkLoop spans (List.range' i k) segs seg, ∀ j : Int,
        covers s j = true → resolveAt spans j = s.c := by
  intro k
  induction k with
  | zero =>
    intro i segs seg hch hbe hei hsegs hseg
    simp only [List.range'_zero, mkLoop, Nat.add_zero]
    constructor
    · have := chain_append_singleton segs 0 seg.begin seg hch rfl hbe
      rwa [hei] at this
    · intro s hs j hc
      rcases List.mem_append.mp hs with h | h
      · exact hsegs s h j hc
      · rw [List.mem_singleton] at h
        subst h
        exact hseg j hc
  | succ k ih =>
    intro i segs seg hch hbe hei hsegs hseg
    rw [List.range'_succ]
    simp only [mkLoop]
    rw [show i + (k + 1) = (i + 1) + k by omega]
    by_cases hc : (seg.c == resolveAt spans (i : Int)) = true
    · rw [if_pos hc]
      have hceq : seg.c = resolveAt spans (i : Int) := by simpa using hc
      have hnew : ∀ j : Int, covers ⟨seg.begin, seg.«end» + 1, seg.c⟩ j = true →
          resolveAt spans j = seg.c := by
        intro j hj
        simp only [covers, Bool.and_eq_true, decide_eq_true_eq] at hj
        by_cases hje : j < seg.«end»
        · exact hseg j (by
            simp only [covers, Bool.and_eq_true, decide_eq_true_eq]
            exact ⟨hj.1, hje⟩)
        · have hji : j = (i : Int) := by omega
          rw [hji]
          exact hceq.symm
      exact ih (i + 1) segs ⟨seg.begin, seg.«end» + 1, seg.c⟩
        hch (by simp only []; omega) (by simp only []; push_cast; omega) hsegs hnew
    · rw [if_neg hc]
      have h0e : chain 0 (segs ++ [seg]) (i : Int) := by
        have := chain_append_singleton segs 0 seg.begin seg hch rfl hbe
        rwa [hei] at this
      have hsegs' : ∀ s ∈ segs ++ [seg], ∀ j : Int,
          covers s j = true → resolveAt spans j = s.c := by
        intro s hs j hcv
        rcases List.mem_append.mp hs with h | h
        · exact hsegs s h j hcv
        · rw [List.mem_singleton] at h
          subst h
          exact hseg j hcv
      have hnew : ∀ j : Int,
          covers ⟨(i : Int), (i : Int) + 1, resolveAt spans (i : Int)⟩ j = true →
          resolveAt spans j = resolveAt spans (i : Int) := by
        intro j hj
        simp only [covers, Bool.and_eq_true, decide_eq_true_eq] at hj
        have hji : j = (i : Int) := by omega
        rw [hji]
      exact ih (i + 1) (segs ++ [seg]) ⟨(i : Int), (i : Int) + 1, resolveAt spans (i : Int)⟩
        h0e (by simp only []; omega) (by simp only []; push_cast; omega) hsegs' hnew

/-- `chain` form of the segmenter output: the `src/bling.go` segments tile
`[0, len(line))` in order. -/
theorem mk_chain (line : List Char) (spans : List Segment) :
    chain 0 (makeColorizedSegments line spans) (line.length : Int) := by
  have h := (mkLoop_inv spans line.length 0 [] ⟨0, 0, RESET⟩
    rfl le_rfl (by simp) (by intro s hs; exact absurd hs (List.not_mem_nil s))
    (by intro j hc; simp [covers] at hc; omega)).1
  rwa [Nat.zero_add, ← List.range_eq_range'] at h

/-- Color correctness of the segmenter output: every covered position of an
output segment resolves to the segment's color. -/
theorem mk_colors (line : List Char) (spans : List Segment) :
    ∀ s ∈ makeColorizedSegments line spans, ∀ j : Int,
      covers s j = true → resolveAt spans j = s.c := by
  have h := (mkLoop_inv spans line.length 0 [] ⟨0, 0, RESET⟩
    rfl le_rfl (by simp) (by intro s hs; exact absurd hs (List.not_mem_nil s))
    (by intro j hc; simp [covers] at hc; omega)).2
  rwa [← List.range_eq_range'] at h

/-- The segmenter loop consults the spans only through `resolveAt` at the
visited positions. -/
theorem mkLoop_congr (ms₁ ms₂ : List Segment) :
    ∀ (l : List Nat) (segs : List Segment) (seg : Segment),
      (∀ j ∈ l, resolveAt ms₁ (j : Int) = resolveAt ms₂ (j : Int)) →
      mkLoop ms₁ l segs seg = mkLoop ms₂ l segs seg := by
  intro l
  induction l with
  | nil => intro segs seg _; rfl
  | cons i is ih =>
    intro segs seg h
    have hi : resolveAt ms₁ (i : Int) = resolveAt ms₂ (i : Int) :=
      h i (List.mem_cons_self i is)
    simp only [mkLoop, hi]
    by_cases hc : (seg.c == resolveAt ms₂ (i : Int)) = true
    · rw [if_pos hc, if_pos hc]
      exact ih _ _ (fun j hj => h j (List.mem_cons_of_mem i hj))
    · rw [if_neg hc, if_neg hc]
      exact ih _ _ (fun j hj => h j (List.mem_cons_of_mem i hj))

/-- The `part_000` loop is the `src/bling.go` loop with every segment's `end`
shifted down by one (closed vs half-open convention). -/
theorem mkLoopP0_toClosed (spans : List Segment) :
    ∀ (l : List Nat) (segs : List Segment) (seg : Segment),
      mkLoopP0 spans l (segs.map toClosed) (toClosed seg) =
        (mkLoop spans l segs seg).map toClosed := by
  intro l
  induction l with
  | nil =>
    intro segs seg
    simp [mkLoopP0, mkLoop]
  | cons i is ih =>
    intro segs seg
    simp only [mkLoopP0, mkLoop]
    by_cases hc : (seg.c == resolveAt spans (i : Int)) = true
    · rw [if_pos (by simpa [toClosed] using hc), if_pos hc]
      have : (⟨(toClosed seg).begin, (toClosed seg).«end» + 1, (toClosed seg).c⟩ : Segment) =
          toClosed ⟨seg.begin, seg.«end» + 1, seg.c⟩ := by
        simp [toClosed]
      rw [this, ih]
    · rw [if_neg (by simpa [toClosed] using hc), if_neg hc]
      have h1 : segs.map toClosed ++ [toClosed seg] = (segs ++ [seg]).map toClosed := by
        simp
      have h2 : (⟨(i : Int), (i : Int), resolveAt spans (i : Int)⟩ : Segment) =
          toClosed ⟨(i : Int), (i : Int) + 1, resolveAt spans (i : Int)⟩ := by
        simp [toClosed]
      rw [h1, h2, ih]

/-- The `part_000` segmenter output is the `src/bling.go` output with each
segment converted to the closed convention. -/
theorem mkP0_eq_map (line : List Char) (spans : List Segment) :
    makeColorizedSegmentsP0 line spans =
      (makeColorizedSegments line spans).map toClosed := by
  unfold makeColorizedSegmentsP0 makeColorizedSegments
  have : (⟨0, -1, RESET⟩ : Segment) = toClosed ⟨0, 0, RESET⟩ := by
    simp [toClosed]
  rw [this]
  exact mkLoopP0_toClosed spans (List.range line.length) [] ⟨0, 0, RESET⟩

/-- `contains` on a closed-converted segment is exactly half-open coverage of
the original. -/
theorem contains_toClosed (s : Segment) (j : Int) :
    (toClosed s).contains j = covers s j := by
  simp only [Segment.contains, toClosed, covers]
  congr 1
  exact decide_eq_decide.mpr (by omega)

/-- Re-feeding the `src/bling.go` output through `contains` after closed
conversion resolves every in-range position to its original color. -/
theorem resolveAt_toClosed_out (line : List Char) (spans : List Segment) :
    ∀ j : Int, 0 ≤ j → j < (line.length : Int) →
      resolveAt ((makeColorizedSegments line spans).map toClosed) j =
        resolveAt spans j := by
  intro j h0 hn
  obtain ⟨s₀, hf, hmem, hcov⟩ :=
    chain_filter_covers (makeColorizedSegments line spans) 0 (line.length : Int) j
      (mk_chain line spans) h0 hn
  rw [resolveAt_eq_spec]
  unfold resolveSpec
  have hfun : (fun m : Segment => m.contains j) ∘ toClosed = fun s => covers s j :=
    funext (fun s => contains_toClosed s j)
  have hfilter : ((makeColorizedSegments line spans).map toClosed).filter
      (fun m => m.contains j) = [toClosed s₀] := by
    rw [List.filter_map, hfun, hf]
    rfl
  rw [hfilter]
  exact (mk_colors line spans s₀ hmem j hcov).symm

/-- Re-feeding the closed conversion of the `src/bling.go` output reproduces
that output. -/
theorem mk_fixed_closed (line : List Char) (spans : List Segment) :
    makeColorizedSegments line ((makeColorizedSegments line spans).map toClosed) =
      makeColorizedSegments line spans := by
  unfold makeColorizedSegments
  apply mkLoop_congr
  intro j hj
  rw [List.mem_range] at hj
  exact resolveAt_toClosed_out line spans (j : Int) (Int.natCast_nonneg j)
    (by exact_mod_cast hj)

/-- C1: round-trip text preservation — for every line and every span list,
concatenating the literal line substrings covered by the segmenter's output
segments (the non-escape text the renderer emits, in segment order) yields the
original line exactly, for both the `src/bling.go` renderer (half-open slices
`line[s.begin:s.end]`) and the `part_000` renderer (`line[s.begin:s.end+1]`). -/
theorem round_trip_text (line : List Char) (spans : List Segment) :
    ((makeColorizedSegments line spans).map
        (fun s => sliceGo line s.begin s.«end»)).flatten = line ∧
    ((makeColorizedSegmentsP0 line spans).map
        (fun s => sliceGo line s.begin (s.«end» + 1))).flatten = line := by
  have h1 : ((makeColorizedSegments line spans).map
      (fun s => sliceGo line s.begin s.«end»)).flatten = line := by
    rw [chain_slices line _ 0 _ (mk_chain line spans) le_rfl]
    simp [sliceGo]
  refine ⟨h1, ?_⟩
  rw [mkP0_eq_map, List.map_map]
  have : ((fun s => sliceGo line s.begin (s.«end» + 1)) ∘ toClosed) =
      fun s : Segment => sliceGo line s.begin s.«end» := by
    funext s
    simp [toClosed]
  rw [this]
  exact h1

/-- C3: full coverage — for every line of length N and every span list, the
segmenter's segments cover each position of `[0, N)` exactly once (the filter
of segments covering a position is a singleton), cover nothing outside
`[0, N)`, and are ordered left to right; in both variants (half-open `covers`
for `src/bling.go`, the code's own closed `contains` for `part_000`). -/
theorem full_coverage (line : List Char) (spans : List Segment) :
    (∀ j : Int, 0 ≤ j → j < (line.length : Int) →
      ∃ s₀, (makeColorizedSegments line spans).filter (fun s => covers s j) = [s₀]) ∧
    (∀ s ∈ makeColorizedSegments line spans, ∀ j : Int, covers s j = true →
      0 ≤ j ∧ j < (line.length : Int)) ∧
    List.Pairwise (fun s t => s.«end» ≤ t.begin) (makeColorizedSegments line spans) ∧
    (∀ j : Int, 0 ≤ j → j < (line.length : Int) →
      ∃ s₀, (makeColorizedSegmentsP0 line spans).filter (fun s => s.contains j) = [s₀]) ∧
    (∀ s ∈ makeColorizedSegmentsP0 line spans, ∀ j : Int, s.contains j = true →
      0 ≤ j ∧ j < (line.length : Int)) ∧
    List.Pairwise (fun s t => s.«end» < t.begin) (makeColorizedSegmentsP0 line spans) := by
  have hch := mk_chain line spans
  refine ⟨?_, ?_, ?_, ?_, ?_, ?_⟩
  · intro j h0 hn
    obtain ⟨s₀, hf, _, _⟩ := chain_filter_covers _ 0 _ j hch h0 hn
    exact ⟨s₀, hf⟩
  · intro s hs j hcov
    obtain ⟨hb1, hb2⟩ := chain_bounds _ 0 _ hch s hs
    simp only [covers, Bool.and_eq_true, decide_eq_true_eq] at hcov
    exact ⟨by omega, by omega⟩
  · exact chain_pairwise _ 0 _ hch
  · intro j h0 hn
    obtain ⟨s₀, hf, _, _⟩ := chain_filter_covers _ 0 _ j hch h0 hn
    refine ⟨toClosed s₀, ?_⟩
    rw [mkP0_eq_map, List.filter_map,
      show ((fun s : Segment => s.contains j) ∘ toClosed) = (fun s => covers s j) from
        funext (fun s => contains_toClosed s j),
      hf]
    rfl
  · intro s hs j hcont
    rw [mkP0_eq_map] at hs
    obtain ⟨t, ht, rfl⟩ := List.mem_map.mp hs
    rw [contains_toClosed] at hcont
    obtain ⟨hb1, hb2⟩ := chain_bounds _ 0 _ hch t ht
    simp only [covers, Bool.and_eq_true, decide_eq_true_eq] at hcont
    exact ⟨by omega, by omega⟩
  · rw [mkP0_eq_map, List.pairwise_map]
    refine List.Pairwise.imp ?_ (chain_pairwise _ 0 _ hch)
    intro s t h
    simp only [toClosed]
    omega

/-- Witness for `full_coverage` at a concrete line and span list. -/
theorem full_coverage_witness :
    (∃ s₀, (makeColorizedSegments ['a', 'b'] [⟨0, 0, "red"⟩]).filter
      (fun s => covers s 0) = [s₀]) ∧
    (∃ s₀, (makeColorizedSegmentsP0 ['a', 'b'] [⟨0, 0, "red"⟩]).filter
      (fun s => s.contains 1) = [s₀]) := by
  have h := full_coverage ['a', 'b'] [⟨0, 0, "red"⟩]
  exact ⟨h.1 0 (by decide) (by decide), h.2.2.2.1 1 (by decide) (by decide)⟩

/-- C8 counterexample: the claim fails for `src/bling.go` as stated.  The
segments for line `"a"` with one red span are `[(0,0,reset), (0,1,red)]`
(half-open); fed back through the closed-interval `contains`, both contain
position 0, so the re-run resolves it to `OVERLAP` and the output differs. -/
theorem refeed_counterexample :
    makeColorizedSegments ['a'] (makeColorizedSegments ['a'] [⟨0, 0, "red"⟩]) ≠
      makeColorizedSegments ['a'] [⟨0, 0, "red"⟩] := by decide

/-- C8 (amended): the segmenter output is a fixed point once each output
segment is read in the closed-interval convention `contains` uses: re-feeding
the `src/bling.go` segments converted to closed spans `(begin, end-1)`
reproduces the output identically, and the `part_000` segmenter (whose
segments are already closed) is literally idempotent. -/
theorem refeed_fixed_point (line : List Char) (spans : List Segment) :
    makeColorizedSegments line ((makeColorizedSegments line spans).map toClosed) =
      makeColorizedSegments line spans ∧
    makeColorizedSegmentsP0 line (makeColorizedSegmentsP0 line spans) =
      makeColorizedSegmentsP0 line spans := by
  refine ⟨mk_fixed_closed line spans, ?_⟩
  calc makeColorizedSegmentsP0 line (makeColorizedSegmentsP0 line spans)
      = (makeColorizedSegments line
          ((makeColorizedSegments line spans).map toClosed)).map toClosed := by
        rw [mkP0_eq_map line spans, mkP0_eq_map line]
    _ = (makeColorizedSegments line spans).map toClosed := by
        rw [mk_fixed_closed]
    _ = makeColorizedSegmentsP0 line spans := (mkP0_eq_map line spans).symm

/-- With no spans every position resolves to `RESET`, so the loop only ever
extends the current segment. -/
theorem mkLoop_nil_spans : ∀ (l : List Nat) (segs : List Segment) (seg : Segment),
    seg.c = RESET →
    mkLoop [] l segs seg = segs ++ [⟨seg.begin, seg.«end» + (l.length : Int), seg.c⟩] := by
  intro l
  induction l with
  | nil =>
    intro segs seg _
    simp [mkLoop]
  | cons i is ih =>
    intro segs seg hc
    simp only [mkLoop]
    rw [if_pos (by rw [hc]; rfl), ih segs ⟨seg.begin, seg.«end» + 1, seg.c⟩ hc]
    have he : seg.«end» + 1 + (is.length : Int) =
        seg.«end» + ((is.length + 1 : Nat) : Int) := by
      push_cast
      omega
    simp only [List.length_cons, he]

/-- The `src/bling.go` segmenter on an empty span list: one `RESET` segment
spanning the whole line. -/
theorem mk_no_spans (line : List Char) :
    makeColorizedSegments line [] = [⟨0, (line.length : Int), RESET⟩] := by
  unfold makeColorizedSegments
  rw [mkLoop_nil_spans _ _ _ rfl]
  simp

/-- When every configured expression finds no match on a line, the matcher
returns no spans. -/
theorem find_no_match (line : List Char) (exprs : exprsT)
    (h : ∀ p ∈ exprs, ∀ ex ∈ p.2, ex line = []) :
    findMatchingSegments line exprs = [] := by
  unfold findMatchingSegments
  have hnil : (exprs.map (fun p =>
      (p.2.map (fun expr => (expr line).map
        (fun idx => Segment.mk idx.1 (idx.2 - 1) p.1))).flatten)).flatten = [] := by
    rw [List.flatten_eq_nil_iff]
    intro l hl
    obtain ⟨p, hp, rfl⟩ := List.mem_map.mp hl
    rw [List.flatten_eq_nil_iff]
    intro l2 hl2
    obtain ⟨ex, hex, rfl⟩ := List.mem_map.mp hl2
    rw [h p hp ex hex]
    rfl
  rw [hnil]
  rfl

/-- C4: no-match identity — on a line where every configured pattern finds no
match (in particular with no bindings at all) the matcher returns no spans,
the segmenter produces the single `RESET` segment spanning the whole line, and
the rendered output is the original line wrapped once in reset escape codes
(plus the line terminator `Println` adds). -/
theorem no_match_identity (line : List Char) (exprs : exprsT)
    (h : ∀ p ∈ exprs, ∀ ex ∈ p.2, ex line = []) :
    findMatchingSegments line exprs = [] ∧
    makeColorizedSegments line (findMatchingSegments line exprs) =
      [⟨0, (line.length : Int), RESET⟩] ∧
    printColorized line (makeColorizedSegments line (findMatchingSegments line exprs)) =
      colorsGet RESET ++ line ++ colorsGet RESET ++ ['\n'] := by
  have hf := find_no_match line exprs h
  refine ⟨hf, by rw [hf]; exact mk_no_spans line, ?_⟩
  rw [hf, mk_no_spans]
  simp [printColorized, sliceGo]

/-- Witness for `no_match_identity`: no bindings, line `"hello"`. -/
theorem no_match_identity_witness :
    findMatchingSegments "hello".toList [] = [] ∧
    makeColorizedSegments "hello".toList (findMatchingSegments "hello".toList []) =
      [⟨0, 5, RESET⟩] ∧
    printColorized "hello".toList
        (makeColorizedSegments "hello".toList (findMatchingSegments "hello".toList [])) =
      colorsGet RESET ++ "hello".toList ++ colorsGet RESET ++ ['\n'] :=
  no_match_identity "hello".toList []
    (fun p hp => absurd hp (List.not_mem_nil p))

/-- C5 (code behavior at the failing input): `ReadBytes('\n')` returns a final
line lacking its newline together with `io.EOF`, and `run` returns `nil`
without processing those bytes — input `"hello"` without a trailing newline
produces no output at all, while the same text with a trailing newline is
rendered normally (one newline stripped). -/
theorem final_line_without_newline_dropped :
    run [] ⟨"hello".toList, Terminal.eof⟩ = ([], Except.ok ()) ∧
    run [] ⟨"hello\n".toList, Terminal.eof⟩ =
      ([colorsGet RESET ++ "hello".toList ++ colorsGet RESET ++ ['\n']],
        Except.ok ()) := by
  constructor
  · rfl
  · rfl

/-- C6 (code behavior): `run` returns `nil` on clean end-of-input and returns
the read error otherwise, aborting the loop — but `main` ignores `run`'s
return value, so on stream `"x\ny"` ending in a read error the process still
exits 0 after printing the first line: the error never produces a non-zero
termination. -/
theorem read_error_exit_zero :
    (∀ (exprs : exprsT) (content : List Char),
      (run exprs ⟨content, Terminal.eof⟩).2 = Except.ok ()) ∧
    (∀ (exprs : exprsT) (content : List Char) (e : String),
      (run exprs ⟨content, Terminal.err e⟩).2 = Except.error e) ∧
    mainGo (fun _ => some (fun _ => [])) (fun _ => true) ["-red=a"]
        ⟨"x\ny".toList, Terminal.err "boom"⟩ =
      ([colorsGet RESET ++ ['x'] ++ colorsGet RESET ++ ['\n']], 0) := by
  refine ⟨fun _ _ => rfl, fun _ _ _ => rfl, rfl⟩


/-- A bad token anywhere in the argument list makes the parse loop return an
error, whatever bindings were accumulated before it. -/
theorem parseLoop_fatal (compile : String → Option RegexFn) (openOk : String → Bool) :
    ∀ (args : List String) (exprs : exprsT),
      hasBadToken compile openOk args = true →
      ∃ e, parseLoop compile openOk args exprs = .error e := by
  intro args
  induction args with
  | nil =>
    intro exprs h
    exact absurd h (by simp [hasBadToken])
  | cons arg rest ih =>
    intro exprs h
    unfold hasBadToken at h
    unfold parseLoop
    cases hsh : argShape arg with
    | none =>
      simp only [hsh] at h
      by_cases hr : rest = []
      · subst hr
        have hopen : openOk arg = false := by
          simpa [hasBadToken] using h
        refine ⟨"open " ++ arg, ?_⟩
        show (if ([] : List String) ≠ [] then Except.error ("Invalid argument " ++ arg)
          else if openOk arg = true then Except.ok ((exprs, some arg) : exprsT × Option String)
          else Except.error ("open " ++ arg)) = Except.error ("open " ++ arg)
        rw [if_neg (by simp), if_neg (by simp [hopen])]
      · refine ⟨"Invalid argument " ++ arg, ?_⟩
        show (if rest ≠ [] then Except.error ("Invalid argument " ++ arg)
          else if openOk arg = true then Except.ok ((exprs, some arg) : exprsT × Option String)
          else Except.error ("open " ++ arg)) = Except.error ("Invalid argument " ++ arg)
        rw [if_pos hr]
    | some colpat =>
      obtain ⟨col, pattern⟩ := colpat
      simp only [hsh] at h
      show ∃ e, (if (colors.lookup col).isNone = true
          then Except.error ("Unrecognized color " ++ col)
          else match compile pattern with
            | some expr => parseLoop compile openOk rest (insertExpr exprs col expr)
            | none => Except.error ("Invalid pattern " ++ pattern)) = Except.error e
      by_cases hcol : (colors.lookup col).isNone = true
      · rw [if_pos hcol]
        exact ⟨_, rfl⟩
      · rw [if_neg hcol]
        have h1 : (colors.lookup col).isNone = false := Bool.eq_false_iff.mpr hcol
        cases hcomp : compile pattern with
        | none => exact ⟨_, rfl⟩
        | some expr =>
          apply ih
          rw [h1, hcomp] at h
          simpa using h

/-- C7: configuration errors are fatal and precede processing — whenever the
argument list contains a malformed non-final token, an unrecognized color, a
pattern that fails to compile, or an unopenable final file token, `parseArgs`
returns an error, and the process exits with status 1 having produced no
output (no input line is ever processed). -/
theorem config_errors_fatal (compile : String → Option RegexFn) (openOk : String → Bool)
    (args : List String) (input : Stream0)
    (h : hasBadToken compile openOk args = true) :
    (∃ e, parseArgs compile openOk args = .error e) ∧
    mainGo compile openOk args input = ([], 1) := by
  obtain ⟨e, he⟩ := parseLoop_fatal compile openOk args [] h
  refine ⟨⟨e, he⟩, ?_⟩
  unfold mainGo
  cases args with
  | nil => exact absurd h (by simp [hasBadToken])
  | cons a rest =>
    rw [if_neg (by simp)]
    have he' : parseArgs compile openOk (a :: rest) = .error e := he
    rw [he']

/-- Witness for `config_errors_fatal`: `-purple=foo` is an unrecognized color;
the parse fails and the process exits 1 with no output. -/
theorem config_errors_fatal_witness :
    (∃ e, parseArgs (fun _ => some (fun _ => [])) (fun _ => true)
      ["-purple=foo"] = .error e) ∧
    mainGo (fun _ => some (fun _ => [])) (fun _ => true) ["-purple=foo"]
      ⟨[], Terminal.eof⟩ = ([], 1) :=
  config_errors_fatal (fun _ => some (fun _ => [])) (fun _ => true)
    ["-purple=foo"] ⟨[], Terminal.eof⟩ (by decide)

/-- `-overlap=PATTERN` matches the binding shape with color `"overlap"`. -/
theorem argShape_overlap (p : String) (hnl : ∀ ch ∈ p.toList, ch ≠ '\n') :
    argShape ("-overlap=" ++ p) = some ("overlap", p) := by
  have htw : p.toList.takeWhile (fun ch => decide (ch ≠ '\n')) = p.toList :=
    List.takeWhile_eq_self_iff.mpr (by intro ch hch; simpa using hnl ch hch)
  have key : argShape ("-overlap=" ++ p)
      = some ("overlap",
          String.mk (p.toList.takeWhile (fun ch => decide (ch ≠ '\n')))) := rfl
  rw [key, htw]
  rfl

/-- `-reset=PATTERN` matches the binding shape with color `"reset"`. -/
theorem argShape_reset (p : String) (hnl : ∀ ch ∈ p.toList, ch ≠ '\n') :
    argShape ("-reset=" ++ p) = some ("reset", p) := by
  have htw : p.toList.takeWhile (fun ch => decide (ch ≠ '\n')) = p.toList :=
    List.takeWhile_eq_self_iff.mpr (by intro ch hch; simpa using hnl ch hch)
  have key : argShape ("-reset=" ++ p)
      = some ("reset",
          String.mk (p.toList.takeWhile (fun ch => decide (ch ≠ '\n')))) := rfl
  rw [key, htw]
  rfl

/-- C10: the pseudo-color names `"overlap"` and `"reset"` are accepted as the
COLOR of a `-COLOR=PATTERN` binding — `parseArgs` validates the color by
lookup in the full escape table, which contains both pseudo-colors, so the
bindings parse successfully instead of raising an unrecognized-color error. -/
theorem pseudo_colors_accepted (compile : String → Option RegexFn) (openOk : String → Bool)
    (p : String) (f : RegexFn)
    (hc : compile p = some f) (hnl : ∀ ch ∈ p.toList, ch ≠ '\n') :
    parseArgs compile openOk ["-overlap=" ++ p] = .ok ([("overlap", [f])], none) ∧
    parseArgs compile openOk ["-reset=" ++ p] = .ok ([("reset", [f])], none) := by
  constructor
  · show parseLoop compile openOk ["-overlap=" ++ p] [] = _
    unfold parseLoop
    simp only [argShape_overlap p hnl]
    rw [if_neg (by decide)]
    simp only [hc]
    rfl
  · show parseLoop compile openOk ["-reset=" ++ p] [] = _
    unfold parseLoop
    simp only [argShape_reset p hnl]
    rw [if_neg (by decide)]
    simp only [hc]
    rfl

/-- Witness for `pseudo_colors_accepted` with pattern `foo` and a compile
oracle that accepts everything. -/
theorem pseudo_colors_accepted_witness :
    parseArgs (fun _ => some (fun _ => [])) (fun _ => true) ["-overlap=" ++ "foo"]
      = .ok ([("overlap", [fun _ => []])], none) ∧
    parseArgs (fun _ => some (fun _ => [])) (fun _ => true) ["-reset=" ++ "foo"]
      = .ok ([("reset", [fun _ => []])], none) :=
  pseudo_colors_accepted (fun _ => some (fun _ => [])) (fun _ => true)
    "foo" (fun _ => []) rfl (by decide)
